import Mathlib

/-!
Shallow embedding of `src/src/lib.rs` of audio-fft-wasm.

The repository's only source file defines `AudioProcessor`, a struct holding a
forward FFT plan (`Arc<dyn rustfft::Fft<f32>>`) built at construction for a
fixed length, with two operations:

* `AudioProcessor::new(size)` — plans a forward FFT of the given size and
  stores it;
* `AudioProcessor::process_audio(&self, audio_data)` — maps each input sample
  `x` to the complex number `Complex::new(x, 0.0)`, runs `self.fft.process`
  in place over the resulting buffer, and maps each resulting complex value
  `c` to `c.norm()` (the Euclidean norm `sqrt(re² + im²)`).

The FFT itself lives in the external `rustfft` crate, not in this repository,
so its execution is modelled from its documented contract: `Fft::process`
divides the buffer into chunks of `self.len()` and computes a forward discrete
Fourier transform on each chunk; it panics if `buffer.len() % self.len() > 0`
or if `buffer.len() == 0`, and a length-0 plan's `process` is a no-op.
Panics are modelled as `none`; `f32` arithmetic is idealised as real
arithmetic, so the transform is the exact forward DFT.
-/

namespace AudioFftWasm

/-- Models `Complex::<f32>::norm()` from `num_complex` as used on line 45 of
`lib.rs`: the Euclidean norm `sqrt(re² + im²)` of a complex value. -/
noncomputable def cnorm (c : ℂ) : ℝ :=
  Real.sqrt (c.re ^ 2 + c.im ^ 2)

/-- Modelled from the spec: the forward discrete Fourier transform executed by
the stored `rustfft` plan (external crate, not in `src/`) on one block.
Bin `k` is `∑ n, x[n] · ω^(k·n)` with `ω = exp(-2πi/N)`, the standard
unnormalised forward DFT of length `N = x.length`. -/
noncomputable def dft (x : List ℂ) : List ℂ :=
  (List.range x.length).map fun k =>
    ((List.range x.length).map fun n =>
      x.getD n 0 * Complex.exp (-(2 * Real.pi * Complex.I) / (x.length : ℂ)) ^ (k * n)).sum

/-- Splits a buffer into consecutive chunks of size `n`, the way
`rustfft::array_utils::iter_chunks` walks the buffer (any remainder shorter
than `n` is not a chunk; the panic on a remainder is handled in
`fftProcess`). -/
def chunks {α : Type*} (n : ℕ) (l : List α) : List (List α) :=
  if _h : n = 0 then []
  else if _hl : l.length < n then []
  else l.take n :: chunks n (l.drop n)
termination_by l.length
decreasing_by
  simp only [List.length_drop]
  omega

/-- Models `rustfft::Fft::process` (line 41 of `lib.rs`), from the crate's
documented contract: divides the buffer into chunks of the plan's length and
computes a forward DFT on each chunk in place; panics — modelled as `none` —
when `buffer.len() % self.len() > 0` or `buffer.len() == 0`; a length-0
plan's `process` returns with the buffer untouched. -/
noncomputable def fftProcess (n : ℕ) (buffer : List ℂ) : Option (List ℂ) :=
  if n = 0 then some buffer
  else if buffer = [] then none
  else if buffer.length % n ≠ 0 then none
  else some ((chunks n buffer).map dft).flatten

/-- Embeds the `AudioProcessor` struct (lines 9–15 of `lib.rs`). Its single
field is the stored plan `fft: Arc<dyn rustfft::Fft<f32>>`; a plan is
specialised to one FFT length and its execution is `fftProcess`, so the plan
is represented by its length. -/
structure AudioProcessor where
  fftLen : ℕ

/-- Embeds `AudioProcessor::new` (lines 22–30 of `lib.rs`): plans a forward
FFT of the requested size and returns the processor. There is no error path:
the Rust signature is `pub fn new(size: usize) -> Self` and
`FftPlanner::plan_fft_forward` accepts every length, including 0. -/
def AudioProcessor.new (size : ℕ) : AudioProcessor :=
  { fftLen := size }

/-- Embeds `AudioProcessor::process_audio` (lines 35–46 of `lib.rs`):
build the complex buffer with `Complex::new(x, 0.0)` per sample, run the
stored plan over it with `self.fft.process`, then map each complex value to
its norm. A panic inside `process` (length mismatch) propagates, modelled as
`none`. -/
noncomputable def AudioProcessor.process_audio (p : AudioProcessor)
    (audio_data : List ℝ) : Option (List ℝ) :=
  (fftProcess p.fftLen (audio_data.map fun x => ⟨x, 0⟩)).map fun res =>
    res.map cnorm

/-- The call `processor.process_audio(data)` as a state transformer: the
method borrows `&self` immutably and `AudioProcessor` has no interior
mutability (the plan behind the `Arc` is only read), so the processor state
after the call is the processor state before it. -/
noncomputable def AudioProcessor.process_audio_call (p : AudioProcessor)
    (audio_data : List ℝ) : Option (List ℝ) × AudioProcessor :=
  (p.process_audio audio_data, p)

/-! ### Helper lemmas -/

theorem cnorm_nonneg (c : ℂ) : 0 ≤ cnorm c :=
  Real.sqrt_nonneg _

theorem cnorm_mk (x : ℝ) : cnorm ⟨x, 0⟩ = |x| := by
  simp [cnorm, Real.sqrt_sq_eq_abs]

theorem cnorm_zero : cnorm 0 = 0 := by
  simp [cnorm]

theorem cnorm_two : cnorm 2 = 2 := by
  have h4 : (2:ℂ).re ^ 2 + (2:ℂ).im ^ 2 = 2 ^ 2 := by
    simp
  rw [cnorm, h4, Real.sqrt_sq (by norm_num)]

theorem dft_length (x : List ℂ) : (dft x).length = x.length := by
  simp [dft]

theorem getD_replicate_zero (N n : ℕ) : (List.replicate N (0:ℂ)).getD n 0 = 0 := by
  rcases lt_or_le n N with h | h
  · rw [List.getD_eq_getElem _ _ (by simpa using h)]
    simp
  · rw [List.getD_eq_default _ _ (by simpa using h)]

theorem dft_replicate_zero (N : ℕ) :
    dft (List.replicate N 0) = List.replicate N 0 := by
  unfold dft
  rw [List.length_replicate]
  have hinner : ∀ k, ((List.range N).map fun n =>
      (List.replicate N (0:ℂ)).getD n 0 *
        Complex.exp (-(2 * Real.pi * Complex.I) / (N : ℂ)) ^ (k * n)).sum = 0 := by
    intro k
    apply List.sum_eq_zero
    intro y hy
    simp only [List.mem_map] at hy
    obtain ⟨n, _, rfl⟩ := hy
    rw [getD_replicate_zero, zero_mul]
  calc (List.range N).map (fun k => ((List.range N).map fun n =>
        (List.replicate N (0:ℂ)).getD n 0 *
          Complex.exp (-(2 * Real.pi * Complex.I) / (N : ℂ)) ^ (k * n)).sum)
      = (List.range N).map fun _ => (0:ℂ) := List.map_congr_left fun k _ => hinner k
    _ = List.replicate N 0 := by simp [List.map_const']

theorem chunks_nil {α : Type*} (n : ℕ) : chunks n ([] : List α) = [] := by
  rw [chunks]
  rcases Nat.eq_zero_or_pos n with h | h
  · simp [h]
  · simp [h.ne', h]

theorem chunks_cons {α : Type*} (n : ℕ) (l : List α) (hn : n ≠ 0) (hl : n ≤ l.length) :
    chunks n l = l.take n :: chunks n (l.drop n) := by
  rw [chunks]
  simp [hn, Nat.not_lt.mpr hl]

theorem mk_eq_ofReal (x : ℝ) : (⟨x, 0⟩ : ℂ) = (x : ℂ) := rfl

theorem chunks_of_length_eq {α : Type*} (n : ℕ) (l : List α) (hn : n ≠ 0)
    (h : l.length = n) : chunks n l = [l] := by
  rw [chunks_cons n l hn (le_of_eq h.symm)]
  rw [List.take_of_length_le (le_of_eq h), List.drop_of_length_le (le_of_eq h), chunks_nil]

theorem mem_chunks_length {α : Type*} (n : ℕ) (hn : n ≠ 0) :
    ∀ (k : ℕ) (l : List α), l.length = k * n → ∀ c ∈ chunks n l, c.length = n := by
  intro k
  induction k with
  | zero =>
    intro l h c hc
    have hl : l = [] := List.length_eq_zero.mp (by simpa using h)
    subst hl
    rw [chunks_nil] at hc
    simp at hc
  | succ k ih =>
    intro l h c hc
    rw [Nat.succ_mul] at h
    have hle : n ≤ l.length := by omega
    rw [chunks_cons n l hn hle] at hc
    rcases List.mem_cons.mp hc with rfl | hc'
    · rw [List.length_take]
      omega
    · exact ih (l.drop n) (by rw [List.length_drop]; omega) c hc'

theorem flatten_chunks_dft_length (n : ℕ) (hn : n ≠ 0) :
    ∀ (k : ℕ) (l : List ℂ), l.length = k * n →
      (((chunks n l).map dft).flatten).length = l.length := by
  intro k
  induction k with
  | zero =>
    intro l h
    have hl : l = [] := List.length_eq_zero.mp (by simpa using h)
    subst hl
    rw [chunks_nil]
    simp
  | succ k ih =>
    intro l h
    rw [Nat.succ_mul] at h
    have hle : n ≤ l.length := by omega
    rw [chunks_cons n l hn hle]
    rw [List.map_cons, List.flatten_cons, List.length_append, dft_length,
      List.length_take, ih (l.drop n) (by rw [List.length_drop]; omega)]
    rw [List.length_drop]
    omega

theorem chunks_map {α β : Type*} (f : α → β) (n : ℕ) (hn : n ≠ 0) :
    ∀ (k : ℕ) (l : List α), l.length = k * n →
      chunks n (l.map f) = (chunks n l).map (List.map f) := by
  intro k
  induction k with
  | zero =>
    intro l h
    have hl : l = [] := List.length_eq_zero.mp (by simpa using h)
    subst hl
    simp [chunks_nil]
  | succ k ih =>
    intro l h
    rw [Nat.succ_mul] at h
    have hle : n ≤ l.length := by omega
    have hle' : n ≤ (l.map f).length := by rw [List.length_map]; omega
    rw [chunks_cons n (l.map f) hn hle', chunks_cons n l hn hle, List.map_cons]
    rw [← List.map_take, ← List.map_drop]
    rw [ih (l.drop n) (by rw [List.length_drop]; omega)]

theorem fftProcess_eq_some (n : ℕ) (hn : n ≠ 0) (k : ℕ) (hk : k ≠ 0) (l : List ℂ)
    (h : l.length = k * n) :
    fftProcess n l = some ((chunks n l).map dft).flatten := by
  unfold fftProcess
  have h1 : l ≠ [] := by
    intro he
    rw [he] at h
    simp at h
    rcases h with h | h
    · exact hk h
    · exact hn h
  have h2 : l.length % n = 0 := by rw [h]; exact Nat.mul_mod_left k n
  simp [hn, h1, h2]

theorem fftProcess_single (n : ℕ) (hn : n ≠ 0) (l : List ℂ) (h : l.length = n) :
    fftProcess n l = some (dft l) := by
  rw [fftProcess_eq_some n hn 1 one_ne_zero l (by simpa using h)]
  rw [chunks_of_length_eq n l hn h]
  simp

theorem process_audio_spec (p : AudioProcessor) (x : List ℝ) (hn : p.fftLen ≠ 0)
    (h : x.length = p.fftLen) :
    p.process_audio x = some ((dft (x.map fun r => ⟨r, 0⟩)).map cnorm) := by
  unfold AudioProcessor.process_audio
  rw [fftProcess_single p.fftLen hn _ (by simpa using h)]
  rfl

theorem process_audio_length (p : AudioProcessor) (x out : List ℝ)
    (h : p.process_audio x = some out) : out.length = x.length := by
  unfold AudioProcessor.process_audio at h
  rcases Option.map_eq_some'.mp h with ⟨res, hres, hout⟩
  subst hout
  unfold fftProcess at hres
  split at hres
  · rw [← Option.some_inj.mp hres]
    simp
  · split at hres
    · simp at hres
    · split at hres
      · simp at hres
      · rename_i hn0 _ hmod
        rw [← Option.some_inj.mp hres]
        have hdvd : p.fftLen ∣ (x.map fun r => (⟨r, 0⟩ : ℂ)).length :=
          Nat.dvd_of_mod_eq_zero (by omega)
        have hlen : (x.map fun r => (⟨r, 0⟩ : ℂ)).length =
            ((x.map fun r => (⟨r, 0⟩ : ℂ)).length / p.fftLen) * p.fftLen :=
          (Nat.div_mul_cancel hdvd).symm
        rw [List.length_map,
          flatten_chunks_dft_length p.fftLen hn0 _ _ hlen]
        simp

theorem new_fftLen (size : ℕ) : (AudioProcessor.new size).fftLen = size := rfl

theorem process_one_zero :
    (AudioProcessor.new 1).process_audio [0] = some [0] := by
  rw [process_audio_spec (AudioProcessor.new 1) [0] (by decide) (by decide)]
  rw [show ([0] : List ℝ).map (fun r => (⟨r, 0⟩ : ℂ)) = [0] by simp [mk_eq_ofReal]]
  rw [show ([0] : List ℂ) = List.replicate 1 0 from rfl, dft_replicate_zero]
  simp [cnorm_zero]

/-! ### Claims -/

/-- Claim C1, against the code: `process_audio` performs no length check.
At `N = 4`, the mismatched input length 8 is not rejected — the call returns
a full 8-entry magnitude result (the input is silently processed as two
4-blocks); and the mismatched length 3 does not produce an explicit error
value either — the FFT library's buffer-length assertion panics (`none`). -/
theorem claim1_no_length_mismatch_error :
    (AudioProcessor.new 4).process_audio (List.replicate 8 0) =
      some (List.replicate 8 0) ∧
    (AudioProcessor.new 4).process_audio [0, 0, 0] = none := by
  constructor
  · unfold AudioProcessor.process_audio
    rw [new_fftLen]
    rw [show (List.replicate 8 (0:ℝ)).map (fun x => (⟨x, 0⟩ : ℂ)) =
        List.replicate 8 (0:ℂ) by simp [mk_eq_ofReal]]
    rw [fftProcess_eq_some 4 (by norm_num) 2 (by norm_num) _ (by simp)]
    rw [show List.replicate 8 (0:ℂ) = List.replicate 4 0 ++ List.replicate 4 0 by
      rw [← List.replicate_add]]
    rw [chunks_cons 4 _ (by norm_num) (by simp)]
    rw [List.take_left' (by simp), List.drop_left' (by simp)]
    rw [chunks_of_length_eq 4 _ (by norm_num) (by simp)]
    rw [List.map_cons, List.map_cons, List.map_nil, dft_replicate_zero]
    rw [List.flatten_cons, List.flatten_cons, List.flatten_nil, List.append_nil]
    rw [← List.replicate_add]
    simp [cnorm_zero]
  · unfold AudioProcessor.process_audio fftProcess
    rw [new_fftLen]
    norm_num

/-- Claim C2, against the code: `create` with size 0 is claimed to return an
`InvalidSize` error and no usable handle, but `AudioProcessor::new` has no
error path at all — its return type is `Self` — and called with 0 it returns
a processor whose stored plan has length 0. -/
theorem claim2_create_zero_returns_handle :
    AudioProcessor.new 0 = { fftLen := 0 } :=
  rfl

/-- Claim C3: on an input block whose length equals the configured block
length `N` (with `N > 0` per the construction invariant), `process_audio`
succeeds and returns exactly: each sample embedded as a complex value with
imaginary part 0, the stored forward DFT plan applied over that buffer, and
each resulting complex value mapped to its Euclidean norm, bin for bin. -/
theorem claim3_process_algorithm (p : AudioProcessor) (x : List ℝ)
    (hn : p.fftLen ≠ 0) (h : x.length = p.fftLen) :
    p.process_audio x = some ((dft (x.map fun r => ⟨r, 0⟩)).map cnorm) :=
  process_audio_spec p x hn h

/-- Witness for C3 at `N = 4`, input `[1, 0, -1, 0]`. -/
theorem claim3_witness :
    (AudioProcessor.new 4).fftLen ≠ 0 ∧
    ([1, 0, -1, 0] : List ℝ).length = (AudioProcessor.new 4).fftLen ∧
    (AudioProcessor.new 4).process_audio [1, 0, -1, 0] =
      some ((dft (([1, 0, -1, 0] : List ℝ).map fun r => ⟨r, 0⟩)).map cnorm) :=
  ⟨by decide, by decide,
    claim3_process_algorithm (AudioProcessor.new 4) [1, 0, -1, 0]
      (by decide) (by decide)⟩

/-- Claim C4: whenever `process_audio` succeeds it returns a full output of
the same length as the input — never a partial result (failure is modelled
as `none`, carrying no output). -/
theorem claim4_full_length_on_success (p : AudioProcessor) (x out : List ℝ)
    (h : p.process_audio x = some out) : out.length = x.length :=
  process_audio_length p x out h

/-- Witness for C4 at `N = 1`, input `[0]`. -/
theorem claim4_witness :
    (AudioProcessor.new 1).process_audio [0] = some [0] ∧
    ([0] : List ℝ).length = ([0] : List ℝ).length :=
  ⟨process_one_zero,
    claim4_full_length_on_success (AudioProcessor.new 1) [0] [0] process_one_zero⟩

/-- Claim C5: every value of a successfully returned magnitude sequence is
non-negative (each entry is a Euclidean norm `sqrt(re² + im²)`). -/
theorem claim5_output_nonneg (p : AudioProcessor) (x out : List ℝ)
    (h : p.process_audio x = some out) : ∀ v ∈ out, 0 ≤ v := by
  unfold AudioProcessor.process_audio at h
  rcases Option.map_eq_some'.mp h with ⟨res, _, hout⟩
  subst hout
  intro v hv
  rcases List.mem_map.mp hv with ⟨c, _, rfl⟩
  exact cnorm_nonneg c

/-- Witness for C5 at `N = 1`, input `[0]`. -/
theorem claim5_witness :
    (AudioProcessor.new 1).process_audio [0] = some [0] ∧ (0:ℝ) ≤ 0 :=
  ⟨process_one_zero,
    claim5_output_nonneg (AudioProcessor.new 1) [0] [0] process_one_zero 0
      (by simp)⟩

/-- Claim C6: calling `process_audio` twice with the same input on the same
processor returns identical outputs: the second call runs on the processor
state left by the first call (which, `process_audio` taking `&self` with no
interior mutability, equals the original state), and its output equals the
first call's output. -/
theorem claim6_two_run_determinism (p : AudioProcessor) (x : List ℝ) :
    (p.process_audio_call x).1 =
      ((p.process_audio_call x).2.process_audio_call x).1 :=
  rfl

/-- Claim C7: for every valid (positive) block length `N`, the all-zero
input block of length `N` produces the all-zero output of length `N`. -/
theorem claim7_zero_block (N : ℕ) (hN : N ≠ 0) :
    (AudioProcessor.new N).process_audio (List.replicate N 0) =
      some (List.replicate N 0) := by
  rw [process_audio_spec (AudioProcessor.new N) _ hN (by simp [AudioProcessor.new])]
  rw [show (List.replicate N (0:ℝ)).map (fun r => (⟨r, 0⟩ : ℂ)) =
      List.replicate N 0 by simp [mk_eq_ofReal]]
  rw [dft_replicate_zero]
  simp [cnorm_zero]

/-- Witness for C7 at `N = 1`. -/
theorem claim7_witness :
    (1 : ℕ) ≠ 0 ∧
    (AudioProcessor.new 1).process_audio (List.replicate 1 0) =
      some (List.replicate 1 0) :=
  ⟨by decide, claim7_zero_block 1 (by decide)⟩

/-- Claim C9: a `process_audio` call leaves the processor unchanged — the
plan stored at construction is exactly the plan after any call, so it
remains valid for subsequent calls; only the per-call buffer is transient. -/
theorem claim9_frame (p : AudioProcessor) (x : List ℝ) :
    (p.process_audio_call x).2 = p ∧
    (p.process_audio_call x).2.fftLen = p.fftLen :=
  ⟨rfl, rfl⟩

/-- Claim C8: at `N = 4` with input `[1, 0, -1, 0]`, the forward transform
yields the complex bins `[0, 2, 0, 2]` exactly, and `process_audio` returns
the magnitude sequence `[0, 2, 0, 2]`. -/
theorem claim8_cosine_bins :
    dft [1, 0, -1, 0] = [0, 2, 0, 2] ∧
    (AudioProcessor.new 4).process_audio [1, 0, -1, 0] = some [0, 2, 0, 2] := by
  have hw2 : Complex.exp (-(2 * (Real.pi : ℂ) * Complex.I) / 4) ^ 2 = -1 := by
    rw [← Complex.exp_nat_mul]
    have harg : ((2 : ℕ) : ℂ) * (-(2 * (Real.pi : ℂ) * Complex.I) / 4) =
        -((Real.pi : ℂ) * Complex.I) := by
      push_cast
      ring
    rw [harg, Complex.exp_neg, Complex.exp_pi_mul_I]
    norm_num
  have h4 : Complex.exp (-(2 * (Real.pi : ℂ) * Complex.I) / 4) ^ 4 = 1 := by
    have hr : Complex.exp (-(2 * (Real.pi : ℂ) * Complex.I) / 4) ^ 4 =
        (Complex.exp (-(2 * (Real.pi : ℂ) * Complex.I) / 4) ^ 2) ^ 2 := by ring
    rw [hr, hw2]
    norm_num
  have h6 : Complex.exp (-(2 * (Real.pi : ℂ) * Complex.I) / 4) ^ 6 = -1 := by
    have hr : Complex.exp (-(2 * (Real.pi : ℂ) * Complex.I) / 4) ^ 6 =
        (Complex.exp (-(2 * (Real.pi : ℂ) * Complex.I) / 4) ^ 2) ^ 3 := by ring
    rw [hr, hw2]
    norm_num
  have hdft : dft [1, 0, -1, 0] = [0, 2, 0, 2] := by
    unfold dft
    norm_num [List.range_succ, List.getD_cons_zero, List.getD_cons_succ]
    rw [hw2, h4, h6]
    norm_num
  refine ⟨hdft, ?_⟩
  rw [process_audio_spec (AudioProcessor.new 4) [1, 0, -1, 0] (by decide) (by decide)]
  rw [show ([1, 0, -1, 0] : List ℝ).map (fun r => (⟨r, 0⟩ : ℂ)) =
      ([1, 0, -1, 0] : List ℂ) by simp [mk_eq_ofReal]]
  rw [hdft]
  simp [cnorm_zero, cnorm_two]

/-- Claim C10, counterexample against the code: the empty input (the multiple
`k = 0` of the block length) is not processed successfully — the FFT
library's documented contract panics on an empty buffer, so the call does
not return ­— rather than returning the empty magnitude sequence. -/
theorem claim10_counterexample :
    (AudioProcessor.new 4).process_audio [] = none := by
  unfold AudioProcessor.process_audio fftProcess
  rw [new_fftLen]
  norm_num

/-- Claim C10 as amended: for every processor with positive block length `N`
and every input of length `k·N` with `k ≥ 1`, `process_audio` succeeds and
returns the concatenation of the per-chunk magnitude spectra — each
consecutive `N`-sample chunk transformed exactly as an independent block —
with total output length equal to the input length. (The claim's `k = 0`
case fails: see the counterexample.) -/
theorem claim10_amended_multiple_blocks (p : AudioProcessor) (hn : p.fftLen ≠ 0)
    (k : ℕ) (hk : k ≠ 0) (x : List ℝ) (hx : x.length = k * p.fftLen) :
    p.process_audio x =
      some (((chunks p.fftLen x).map fun b =>
        (dft (b.map fun r => ⟨r, 0⟩)).map cnorm).flatten) ∧
    (∀ b ∈ chunks p.fftLen x,
      p.process_audio b = some ((dft (b.map fun r => ⟨r, 0⟩)).map cnorm)) ∧
    ∃ out, p.process_audio x = some out ∧ out.length = x.length := by
  have hmain : p.process_audio x =
      some (((chunks p.fftLen x).map fun b =>
        (dft (b.map fun r => ⟨r, 0⟩)).map cnorm).flatten) := by
    unfold AudioProcessor.process_audio
    rw [fftProcess_eq_some p.fftLen hn k hk _ (by simp [hx])]
    rw [chunks_map (fun r => (⟨r, 0⟩ : ℂ)) p.fftLen hn k x hx]
    simp only [Option.map_some', List.map_flatten, List.map_map]
    rfl
  exact ⟨hmain,
    fun b hb => process_audio_spec p b hn (mem_chunks_length p.fftLen hn k x hx b hb),
    ⟨_, hmain, process_audio_length p x _ hmain⟩⟩

/-- Witness for the amended C10 at `N = 1`, `k = 2`, input `[0, 0]`. -/
theorem claim10_witness :
    (AudioProcessor.new 1).fftLen ≠ 0 ∧ (2 : ℕ) ≠ 0 ∧
    ([0, 0] : List ℝ).length = 2 * (AudioProcessor.new 1).fftLen ∧
    ((AudioProcessor.new 1).process_audio [0, 0] =
      some (((chunks (AudioProcessor.new 1).fftLen ([0, 0] : List ℝ)).map fun b =>
        (dft (b.map fun r => ⟨r, 0⟩)).map cnorm).flatten) ∧
    (∀ b ∈ chunks (AudioProcessor.new 1).fftLen ([0, 0] : List ℝ),
      (AudioProcessor.new 1).process_audio b =
        some ((dft (b.map fun r => ⟨r, 0⟩)).map cnorm)) ∧
    ∃ out, (AudioProcessor.new 1).process_audio [0, 0] = some out ∧
      out.length = ([0, 0] : List ℝ).length) :=
  ⟨by decide, by decide, by decide,
    claim10_amended_multiple_blocks (AudioProcessor.new 1) (by decide) 2 (by decide)
      [0, 0] (by decide)⟩

end AudioFftWasm
